import Mathlib

/-!
# Verification of `pdf_platform.py`

A shallow embedding of the offline PDF keyword-search tool in Lean 4,
together with proofs of the behavioural properties claimed by its
specification.

Modelling conventions:
* Python strings are Lean `String` / `List Char`; `str.lower()` is
  `Char.toLower` mapped over the characters.
* A PDF document is its list of pages, each page being `Option String`:
  `some t` is a page whose text extraction succeeded with text `t`
  (possibly empty), `none` is a page whose extraction raised an error
  (the code turns both an exception and a `None` return into `""`).
* Python `dict` is an association list whose keys are unique and ordered
  by first insertion; dict-comprehension over a keyword list therefore
  deduplicates keywords keeping the first occurrence (`dictKeys`).
* File-system effects are abstracted into an explicit `FS` record of
  pure functions; error raising is `Except`.
-/

/-- Characters on which `load_keywords` splits: `re.split(r"[\n,]+", text)`. -/
def isSepChar (c : Char) : Bool := c = '\n' || c = ','

mutual
/-- `re.split(r"[\n,]+", ·)`: pieces between maximal runs of separator
characters; `cur` is the (reversed) piece being accumulated. -/
def reSplitGo : List Char → List Char → List (List Char)
  | [], cur => [cur.reverse]
  | c :: cs, cur =>
    if isSepChar c then cur.reverse :: reSplitSkip cs
    else reSplitGo cs (c :: cur)

/-- Skip the rest of a separator run, then resume accumulating pieces. -/
def reSplitSkip : List Char → List (List Char)
  | [] => [[]]
  | c :: cs => if isSepChar c then reSplitSkip cs else reSplitGo cs [c]
end

/-- `re.split(r"[\n,]+", text)` over the characters of `text`. -/
def reSplitSep (text : List Char) : List (List Char) := reSplitGo text []

/-- Python `str.strip()`: drop whitespace from both ends. -/
def pyStrip (l : List Char) : List Char :=
  ((l.dropWhile Char.isWhitespace).reverse.dropWhile Char.isWhitespace).reverse

/-- `load_keywords`: split the file text on runs of newlines/commas, strip
each piece, drop the pieces that are empty after stripping
(`[k.strip() for k in raw if k.strip()]`). -/
def load_keywords (text : String) : List String :=
  ((reSplitSep text.data).map pyStrip).filter (fun k => k ≠ []) |>.map String.mk

/-- Keys of a Python dict built by comprehension over a list: first
occurrence of each key, in order. -/
def dictKeys : List String → List String
  | [] => []
  | k :: ks => k :: (dictKeys ks).filter (fun x => x ≠ k)

/-- `a` occurs as a prefix of `b` (character lists). -/
def prefixAt : List Char → List Char → Bool
  | [], _ => true
  | _ :: _, [] => false
  | a :: as, b :: bs => a = b && prefixAt as bs

/-- `needle` occurs as a contiguous substring of `hay`. -/
def hasSub (needle : List Char) : List Char → Bool
  | [] => prefixAt needle []
  | b :: bs => prefixAt needle (b :: bs) || hasSub needle bs

/-- Case-insensitive literal substring test: the effect of
`re.compile(re.escape(k), re.IGNORECASE).search(text)`. -/
def matchesCI (kw text : String) : Bool :=
  hasSub (kw.data.map Char.toLower) (text.data.map Char.toLower)

/-- The text the search loop sees for a page: an extraction error (or a
`None` return) becomes the empty string (`text = page.extract_text() or ""`
under `try: ... except: text = ""`). -/
def pageText : Option String → String
  | none => ""
  | some t => t

/-- The page loop of `search_pdf` for one keyword `k`: scan pages starting
at 0-based index `i`, skip pages whose effective text is empty, record
`index + 1` when the keyword matches.  Scanning in index order and
collecting into an ascending list models "accumulate into a set, then
return the sorted list". -/
def searchPages (k : String) : List (Option String) → Nat → List Nat
  | [], _ => []
  | p :: ps, i =>
    let t := pageText p
    if t ≠ "" && matchesCI k t then (i + 1) :: searchPages k ps (i + 1)
    else searchPages k ps (i + 1)

/-- `search_pdf`: mapping (insertion-ordered dict) from each distinct
keyword to the sorted list of 1-based page numbers it matches. -/
def search_pdf (pages : List (Option String)) (keywords : List String) :
    List (String × List Nat) :=
  (dictKeys keywords).map (fun k => (k, searchPages k pages 0))

-- Basic facts about the splitting and stripping machinery.

theorem pyStrip_subset {l : List Char} {c : Char} (h : c ∈ pyStrip l) : c ∈ l := by
  have h1 := (List.mem_reverse).1 h
  have h2 := (List.dropWhile_sublist _).mem h1
  have h3 := (List.mem_reverse).1 h2
  exact (List.dropWhile_sublist _).mem h3

mutual
theorem reSplitGo_no_sep (cs : List Char) (cur : List Char)
    (hcur : ∀ c ∈ cur, isSepChar c = false) :
    ∀ piece ∈ reSplitGo cs cur, ∀ c ∈ piece, isSepChar c = false := by
  match cs with
  | [] =>
    intro piece hp c hc
    simp only [reSplitGo, List.mem_singleton] at hp
    subst hp
    exact hcur c ((List.mem_reverse).1 hc)
  | d :: ds =>
    intro piece hp c hc
    simp only [reSplitGo] at hp
    by_cases hd : isSepChar d
    · rw [if_pos hd] at hp
      rcases List.mem_cons.1 hp with h | h
      · subst h; exact hcur c ((List.mem_reverse).1 hc)
      · exact reSplitSkip_no_sep ds piece h c hc
    · rw [if_neg hd] at hp
      refine reSplitGo_no_sep ds (d :: cur) ?_ piece hp c hc
      intro x hx
      rcases List.mem_cons.1 hx with h | h
      · subst h; simpa using hd
      · exact hcur x h

theorem reSplitSkip_no_sep (cs : List Char) :
    ∀ piece ∈ reSplitSkip cs, ∀ c ∈ piece, isSepChar c = false := by
  match cs with
  | [] =>
    intro piece hp c hc
    simp only [reSplitSkip, List.mem_singleton] at hp
    subst hp
    simp at hc
  | d :: ds =>
    intro piece hp c hc
    simp only [reSplitSkip] at hp
    by_cases hd : isSepChar d
    · rw [if_pos hd] at hp
      exact reSplitSkip_no_sep ds piece hp c hc
    · rw [if_neg hd] at hp
      refine reSplitGo_no_sep ds [d] ?_ piece hp c hc
      intro x hx
      rcases List.mem_cons.1 hx with h | h
      · subst h; simpa using hd
      · simp at h
end

theorem dropWhile_eq_self_of_head_false {p : Char → Bool} {l : List Char}
    (h : ∀ hne : l ≠ [], p (l.head hne) = false) : l.dropWhile p = l := by
  cases l with
  | nil => rfl
  | cons a t =>
    have ha := h (by simp)
    simp only [List.head_cons] at ha
    simp [List.dropWhile_cons, ha]

theorem pyStrip_idem (l : List Char) : pyStrip (pyStrip l) = pyStrip l := by
  unfold pyStrip
  by_cases hsnil : (l.dropWhile Char.isWhitespace).reverse.dropWhile Char.isWhitespace = []
  · simp [hsnil]
  · have hd1 : l.dropWhile Char.isWhitespace ≠ [] := by
      intro h; apply hsnil; simp [h]
    have hstep1 :
        ((l.dropWhile Char.isWhitespace).reverse.dropWhile Char.isWhitespace).reverse.dropWhile
          Char.isWhitespace =
        ((l.dropWhile Char.isWhitespace).reverse.dropWhile Char.isWhitespace).reverse := by
      refine dropWhile_eq_self_of_head_false ?_
      intro hne
      rw [List.head_reverse]
      have hsuf := List.dropWhile_suffix (l := (l.dropWhile Char.isWhitespace).reverse)
        Char.isWhitespace
      rw [hsuf.getLast hsnil, List.getLast_reverse]
      exact List.head_dropWhile_not Char.isWhitespace l _
    rw [hstep1, List.reverse_reverse]
    have hstep2 :
        ((l.dropWhile Char.isWhitespace).reverse.dropWhile Char.isWhitespace).dropWhile
          Char.isWhitespace =
        (l.dropWhile Char.isWhitespace).reverse.dropWhile Char.isWhitespace := by
      refine dropWhile_eq_self_of_head_false ?_
      intro hne
      exact List.head_dropWhile_not Char.isWhitespace _ _
    rw [hstep2]

theorem searchPages_bounds (k : String) (ps : List (Option String)) :
    ∀ i x, x ∈ searchPages k ps i → i < x ∧ x ≤ i + ps.length := by
  induction ps with
  | nil => intro i x hx; simp [searchPages] at hx
  | cons p t ih =>
    intro i x hx
    simp only [searchPages] at hx
    by_cases hm : (pageText p ≠ "" && matchesCI k (pageText p)) = true
    · rw [if_pos hm] at hx
      rcases List.mem_cons.1 hx with h | h
      · subst h; constructor <;> simp
      · have := ih (i + 1) x h
        constructor <;> [omega; (simp only [List.length_cons]; omega)]
    · rw [if_neg hm] at hx
      have := ih (i + 1) x hx
      constructor <;> [omega; (simp only [List.length_cons]; omega)]

theorem searchPages_sorted (k : String) (ps : List (Option String)) :
    ∀ i, List.Sorted (· < ·) (searchPages k ps i) := by
  induction ps with
  | nil => intro i; simp [searchPages]
  | cons p t ih =>
    intro i
    simp only [searchPages]
    by_cases hm : (pageText p ≠ "" && matchesCI k (pageText p)) = true
    · rw [if_pos hm]
      refine List.sorted_cons.2 ⟨?_, ih (i + 1)⟩
      intro b hb
      exact (searchPages_bounds k t (i + 1) b hb).1
    · rw [if_neg hm]; exact ih (i + 1)

theorem dictKeys_mem (ks : List String) (k : String) : k ∈ dictKeys ks ↔ k ∈ ks := by
  induction ks with
  | nil => simp [dictKeys]
  | cons a t ih =>
    simp only [dictKeys, List.mem_cons, List.mem_filter, ih, decide_eq_true_eq]
    by_cases hk : k = a
    · simp [hk]
    · simp [hk]

theorem dictKeys_nodup (ks : List String) : (dictKeys ks).Nodup := by
  induction ks with
  | nil => simp [dictKeys]
  | cons a t ih =>
    simp only [dictKeys]
    refine List.nodup_cons.2 ⟨?_, ih.filter _⟩
    intro h
    have h2 := (List.mem_filter.1 h).2
    simp at h2

theorem prefixAt_iff (a : List Char) : ∀ b, prefixAt a b = true ↔ a <+: b := by
  induction a with
  | nil => intro b; exact ⟨fun _ => List.nil_prefix, fun _ => rfl⟩
  | cons x xs ih =>
    intro b
    cases b with
    | nil =>
      simp only [prefixAt, Bool.false_eq_true, false_iff]
      intro h
      exact absurd (List.eq_nil_of_prefix_nil h) (by simp)
    | cons y ys =>
      rw [List.cons_prefix_cons]
      show (decide (x = y) && prefixAt xs ys) = true ↔ _
      rw [Bool.and_eq_true, decide_eq_true_eq, ih ys]

theorem hasSub_iff (n : List Char) : ∀ h, hasSub n h = true ↔ n <:+: h := by
  intro h
  induction h with
  | nil =>
    simp only [hasSub, List.infix_nil, prefixAt_iff]
    constructor
    · intro hp; exact List.eq_nil_of_prefix_nil (by simpa using hp)
    · intro hp; subst hp; exact List.nil_prefix
  | cons b bs ih =>
    simp [hasSub, prefixAt_iff, ih, List.infix_cons_iff]

-- C1 --

/-- C1: every supplied keyword appears as a key of the mapping returned by
`search_pdf`, and its value is an ascending, duplicate-free list of 1-based
page numbers bounded by the document's page count. -/
theorem search_pdf_complete_sorted_bounded (pages : List (Option String))
    (keywords : List String) (k : String) (hk : k ∈ keywords) :
    ∃ v, (k, v) ∈ search_pdf pages keywords ∧ List.Sorted (· < ·) v ∧ v.Nodup ∧
      ∀ p ∈ v, 1 ≤ p ∧ p ≤ pages.length := by
  refine ⟨searchPages k pages 0, ?_, searchPages_sorted k pages 0,
    (searchPages_sorted k pages 0).nodup, ?_⟩
  · exact List.mem_map.2 ⟨k, (dictKeys_mem keywords k).2 hk, rfl⟩
  · intro p hp
    have := searchPages_bounds k pages 0 p hp
    omega

/-- Witness for C1 at a concrete document and keyword list. -/
theorem search_pdf_complete_sorted_bounded_witness :
    ∃ v, (("inv", v) ∈ search_pdf [some ("x"), some ("Invoice")] ["inv", "b"]) ∧
      List.Sorted (· < ·) v ∧ v.Nodup ∧
      ∀ p ∈ v, 1 ≤ p ∧ p ≤ ([some ("x"), some ("Invoice")] : List (Option String)).length :=
  search_pdf_complete_sorted_bounded [some ("x"), some ("Invoice")] ["inv", "b"] "inv"
    (by decide)

-- C2 --

/-- C2: keyword matching is a case-insensitive literal substring test (the
lowered keyword occurs contiguously in the lowered page text, with no
pattern-language interpretation), and on a 3-page document whose second page
alone contains "Invoice", searching for "invoice" yields the single-entry
mapping with page list `[2]`. -/
theorem matchesCI_literal_substring_and_example :
    (∀ kw text : String, matchesCI kw text = true ↔
       (kw.data.map Char.toLower) <:+: (text.data.map Char.toLower)) ∧
    search_pdf [some ("aa"), some ("the Invoice no"), some ("dd")] ["invoice"] =
      [("invoice", [2])] ∧
    matchesCI (".*") ("ab") = false ∧ matchesCI (".*") ("za.*bz") = true :=
  ⟨fun kw text => by simp [matchesCI, hasSub_iff], by decide, by decide, by decide⟩

-- C3 --

/-- C3: `load_keywords` returns the stripped, non-empty pieces obtained by
splitting on runs of newlines/commas: every returned entry is unchanged and
non-empty under stripping and contains no raw newline or comma, and the
content `"Alpha, beta\ngamma,"` loads to `["Alpha", "beta", "gamma"]`. -/
theorem load_keywords_entries_clean_and_example :
    (∀ text e : String, e ∈ load_keywords text →
       pyStrip e.data = e.data ∧ e ≠ "" ∧ ('\n') ∉ e.data ∧ (',') ∉ e.data) ∧
    load_keywords ("Alpha, beta\ngamma,") = ["Alpha", "beta", "gamma"] := by
  constructor
  · intro text e he
    simp only [load_keywords, List.mem_map, List.mem_filter, ne_eq, decide_not,
      Bool.not_eq_eq_eq_not, Bool.not_true, decide_eq_false_iff_not] at he
    obtain ⟨l, ⟨⟨piece, hpiece, hps⟩, hlne⟩, rfl⟩ := he
    subst hps
    have hdata : (String.mk (pyStrip piece)).data = pyStrip piece := rfl
    refine ⟨by rw [hdata]; exact pyStrip_idem piece, ?_, ?_, ?_⟩
    · intro h
      exact hlne (by simpa using congrArg String.data h)
    · intro h
      rw [hdata] at h
      have hmem := pyStrip_subset h
      have := reSplitGo_no_sep text.data [] (by simp) piece hpiece ('\n') hmem
      simp [isSepChar] at this
    · intro h
      rw [hdata] at h
      have hmem := pyStrip_subset h
      have := reSplitGo_no_sep text.data [] (by simp) piece hpiece (',') hmem
      simp [isSepChar] at this
  · decide

/-- Witness for C3's universal part at a concrete keyword-file content. -/
theorem load_keywords_entries_clean_witness :
    pyStrip (("Alpha" : String).data) = ("Alpha" : String).data ∧ ("Alpha" : String) ≠ "" ∧
      ('\n') ∉ (("Alpha" : String).data) ∧ (',') ∉ (("Alpha" : String).data) :=
  load_keywords_entries_clean_and_example.1 ("Alpha, beta\ngamma,") ("Alpha") (by decide)

theorem searchPages_mem_iff (k : String) (ps : List (Option String)) :
    ∀ i x, x ∈ searchPages k ps i ↔
      ∃ j p, ps[j]? = some p ∧ (pageText p ≠ "" && matchesCI k (pageText p)) = true ∧
        x = i + j + 1 := by
  induction ps with
  | nil => intro i x; simp [searchPages]
  | cons q t ih =>
    intro i x
    simp only [searchPages]
    by_cases hm : (pageText q ≠ "" && matchesCI k (pageText q)) = true
    · rw [if_pos hm, List.mem_cons, ih (i + 1) x]
      constructor
      · rintro (rfl | ⟨j, p, hj, hp, rfl⟩)
        · exact ⟨0, q, by simp, hm, by omega⟩
        · exact ⟨j + 1, p, by simpa using hj, hp, by omega⟩
      · rintro ⟨j, p, hj, hp, rfl⟩
        cases j with
        | zero =>
          left
          omega
        | succ j' =>
          right
          exact ⟨j', p, by simpa using hj, hp, by omega⟩
    · rw [if_neg hm, ih (i + 1) x]
      constructor
      · rintro ⟨j, p, hj, hp, rfl⟩
        exact ⟨j + 1, p, by simpa using hj, hp, by omega⟩
      · rintro ⟨j, p, hj, hp, rfl⟩
        cases j with
        | zero =>
          rw [List.getElem?_cons_zero] at hj
          cases hj
          exact absurd hp hm
        | succ j' => exact ⟨j', p, by simpa using hj, hp, by omega⟩

theorem searchPages_set_none_eq (k : String) (ps : List (Option String)) :
    ∀ j i, searchPages k (ps.set j none) i = searchPages k (ps.set j (some (""))) i := by
  induction ps with
  | nil => intro j i; rfl
  | cons q t ih =>
    intro j i
    cases j with
    | zero =>
      rw [List.set_cons_zero, List.set_cons_zero]
      simp [searchPages, pageText]
    | succ j' =>
      rw [List.set_cons_succ, List.set_cons_succ]
      simp only [searchPages]
      rw [ih j' (i + 1)]

-- C5 --

/-- C5: a page whose extraction raised is treated exactly like a page whose
extracted text is empty (the rest of the file is still processed, with the
same results), and such a page contributes no page number to any keyword. -/
theorem search_pdf_error_page_like_empty :
    (∀ (pages : List (Option String)) (keywords : List String) (j : Nat),
       search_pdf (pages.set j none) keywords =
         search_pdf (pages.set j (some (""))) keywords) ∧
    (∀ (pages : List (Option String)) (keywords : List String) (k : String)
       (v : List Nat) (j : Nat),
       pages[j]? = some none → (k, v) ∈ search_pdf pages keywords → (j + 1) ∉ v) := by
  constructor
  · intro pages keywords j
    simp only [search_pdf]
    refine List.map_congr_left ?_
    intro k _
    rw [searchPages_set_none_eq k pages j 0]
  · intro pages keywords k v j hj hkv hmem
    simp only [search_pdf, List.mem_map] at hkv
    obtain ⟨k', _, heq⟩ := hkv
    obtain ⟨rfl, rfl⟩ : k' = k ∧ searchPages k' pages 0 = v := by
      constructor <;> [exact congrArg Prod.fst heq; exact congrArg Prod.snd heq]
    rw [searchPages_mem_iff k' pages 0 (j + 1)] at hmem
    obtain ⟨j2, p, hj2, hp, hx⟩ := hmem
    have hjj : j2 = j := by omega
    subst hjj
    rw [hj] at hj2
    cases hj2
    simp [pageText] at hp

/-- Witness for C5 at a concrete document whose second page failed. -/
theorem search_pdf_error_page_like_empty_witness :
    ((1 : Nat) + 1) ∉ ([1] : List Nat) :=
  search_pdf_error_page_like_empty.2 [some ("a"), none] ["a"] "a" [1] 1
    (by decide) (by decide)

theorem dictKeys_firstocc (ks : List String) :
    List.Pairwise (fun a b => List.indexOf a ks < List.indexOf b ks) (dictKeys ks) := by
  induction ks with
  | nil => simp [dictKeys]
  | cons a t ih =>
    simp only [dictKeys]
    refine List.pairwise_cons.2 ⟨?_, ?_⟩
    · intro b hb
      have hbne : b ≠ a := by simpa using (List.mem_filter.1 hb).2
      rw [List.indexOf_cons_self, List.indexOf_cons_ne t (Ne.symm hbne)]
      omega
    · refine (ih.filter _).imp_of_mem ?_
      intro x y hx hy hlt
      have hxne : x ≠ a := by simpa using (List.mem_filter.1 hx).2
      have hyne : y ≠ a := by simpa using (List.mem_filter.1 hy).2
      rw [List.indexOf_cons_ne t (Ne.symm hxne), List.indexOf_cons_ne t (Ne.symm hyne)]
      omega

-- C10 --

/-- C10: duplicated keywords collapse to a single key: the keys of the
mapping returned by `search_pdf` are the distinct supplied keywords in
order of first occurrence, even though `load_keywords` preserves
duplicates in its output list. -/
theorem search_pdf_collapses_duplicate_keywords :
    (∀ (pages : List (Option String)) (keywords : List String),
       (search_pdf pages keywords).map Prod.fst = dictKeys keywords) ∧
    (∀ keywords : List String,
       (dictKeys keywords).Nodup ∧ (∀ k, k ∈ dictKeys keywords ↔ k ∈ keywords) ∧
       List.Pairwise (fun a b => List.indexOf a keywords < List.indexOf b keywords)
         (dictKeys keywords)) ∧
    load_keywords ("dup,kw,dup") = ["dup", "kw", "dup"] ∧
    search_pdf [some ("x")] ["dup", "kw", "dup"] = [("dup", []), ("kw", [])] := by
  refine ⟨?_, ?_, by decide, by decide⟩
  · intro pages keywords
    have hcomp : (Prod.fst ∘ fun k => (k, searchPages k pages 0)) = id := rfl
    rw [search_pdf, List.map_map, hcomp, List.map_id]
  · intro keywords
    exact ⟨dictKeys_nodup keywords, dictKeys_mem keywords, dictKeys_firstocc keywords⟩

/-- Python string comparison (`a <= b`): lexicographic by code point. -/
def charListLe : List Char → List Char → Bool
  | [], _ => true
  | _ :: _, [] => false
  | a :: as, b :: bs =>
    if a.toNat < b.toNat then true
    else if b.toNat < a.toNat then false
    else charListLe as bs

/-- The order `sorted` uses on the paths of one directory (POSIX `pathlib`
compares the path strings case-sensitively, code point by code point). -/
def pathLe (a b : String) : Prop := charListLe a.data b.data = true

instance : DecidableRel pathLe := fun a b => Bool.decEq (charListLe a.data b.data) true

theorem charListLe_total (a : List Char) : ∀ b, charListLe a b = true ∨ charListLe b a = true := by
  induction a with
  | nil => intro b; left; rfl
  | cons x xs ih =>
    intro b
    cases b with
    | nil => right; rfl
    | cons y ys =>
      simp only [charListLe]
      rcases Nat.lt_trichotomy x.toNat y.toNat with h | h | h
      · left; rw [if_pos h]
      · rw [if_neg (by omega), if_neg (by omega), if_neg (by omega), if_neg (by omega)]
        exact ih ys
      · right; rw [if_pos h]

theorem charListLe_trans (a : List Char) :
    ∀ b c, charListLe a b = true → charListLe b c = true → charListLe a c = true := by
  induction a with
  | nil => intro b c _ _; rfl
  | cons x xs ih =>
    intro b c h1 h2
    cases b with
    | nil => simp [charListLe] at h1
    | cons y ys =>
      cases c with
      | nil => simp [charListLe] at h2
      | cons z zs =>
        simp only [charListLe] at h1 h2 ⊢
        rcases Nat.lt_trichotomy x.toNat y.toNat with hxy | hxy | hxy
        · rcases Nat.lt_trichotomy y.toNat z.toNat with hyz | hyz | hyz
          · rw [if_pos (by omega)]
          · rw [if_pos (by omega)]
          · rw [if_neg (by omega), if_pos (by omega)] at h2
            exact absurd h2 (by simp)
        · rw [if_neg (by omega), if_neg (by omega)] at h1
          rcases Nat.lt_trichotomy y.toNat z.toNat with hyz | hyz | hyz
          · rw [if_pos (by omega)]
          · rw [if_neg (by omega), if_neg (by omega)] at h2
            rw [if_neg (by omega), if_neg (by omega)]
            exact ih ys zs h1 h2
          · rw [if_neg (by omega), if_pos (by omega)] at h2
            exact absurd h2 (by simp)
        · rw [if_neg (by omega), if_pos (by omega)] at h1
          exact absurd h1 (by simp)

instance : IsTotal String pathLe := ⟨fun a b => charListLe_total a.data b.data⟩

instance : IsTrans String pathLe :=
  ⟨fun a b c h1 h2 => charListLe_trans a.data b.data c.data h1 h2⟩

/-- Python `str.lower()`. -/
def lowerStr (s : String) : String := String.mk (s.data.map Char.toLower)

/-- Index of the last `'.'` in a name (`name.rfind('.')`), if any. -/
def rfindDot (l : List Char) : Option Nat :=
  match List.findIdx? (fun c => c = '.') l.reverse with
  | none => none
  | some j => some (l.length - 1 - j)

/-- `pathlib.PurePath.suffix`: the substring from the last dot on, but only
when that dot is neither the first nor the last character of the name. -/
def pySuffix (name : String) : String :=
  match rfindDot name.data with
  | none => ""
  | some i =>
    if 0 < i ∧ i < name.data.length - 1 then String.mk (name.data.drop i) else ""

/-- Directory mode of `gather_pdf_paths`: keep the entries whose suffix
lowercases to ".pdf" (`p.suffix.lower() == ".pdf"`), sorted
(`sorted([...])`, i.e. by the path order `pathLe`). -/
def gather_dir (entries : List String) : List String :=
  List.insertionSort pathLe (entries.filter (fun n => lowerStr (pySuffix n) == (".pdf")))

/-- The file-system facts `gather_pdf_paths` consults, as pure functions. -/
structure FS where
  fileExists : String → Bool
  dirExists : String → Bool
  dirEntries : String → List String

/-- The two error classes `gather_pdf_paths` can raise: `ValueError`
(usage) and `FileNotFoundError`. -/
inductive GatherErr where
  | usage
  | notFound
deriving DecidableEq

/-- `gather_pdf_paths(pdf_dir, pdf_file)`: the file argument is examined
first; a missing path raises `FileNotFoundError`; with neither argument a
`ValueError` is raised. -/
def gather_pdf_paths (fs : FS) (pdf_dir pdf_file : Option String) :
    Except GatherErr (List String) :=
  match pdf_file with
  | some f =>
    if fs.fileExists f then Except.ok [f] else Except.error GatherErr.notFound
  | none =>
    match pdf_dir with
    | some d =>
      if fs.dirExists d then Except.ok (gather_dir (fs.dirEntries d))
      else Except.error GatherErr.notFound
    | none => Except.error GatherErr.usage

-- C4 --

/-- C4 counterexample: for a directory holding `B.pdf`, `a.PDF`, `c.txt`
the claim predicts the resolved list `[a.PDF, B.pdf]`, but `sorted` compares
path strings by code point (`B` < `a`), so the code yields
`[B.pdf, a.PDF]`. -/
theorem gather_dir_example_order_counterexample :
    gather_dir ["B.pdf", "a.PDF", "c.txt"] = ["B.pdf", "a.PDF"] ∧
    gather_dir ["B.pdf", "a.PDF", "c.txt"] ≠ ["a.PDF", "B.pdf"] := by
  constructor
  · decide
  · decide

/-- C4 (amended): in directory mode the resolver keeps exactly the direct
children whose extension lowercases to ".pdf" and sorts them ascending by
code-point (case-sensitive) order, so the example directory resolves to
`[B.pdf, a.PDF]`. -/
theorem gather_dir_filter_sorted (fs : FS) (d : String) (hd : fs.dirExists d = true) :
    gather_pdf_paths fs (some d) none = Except.ok (gather_dir (fs.dirEntries d)) ∧
    (∀ entries : List String,
       List.Sorted pathLe (gather_dir entries) ∧
       (gather_dir entries).Perm
         (entries.filter (fun n => lowerStr (pySuffix n) == (".pdf")))) ∧
    gather_dir ["B.pdf", "a.PDF", "c.txt"] = ["B.pdf", "a.PDF"] := by
  refine ⟨by simp [gather_pdf_paths, hd], ?_, by decide⟩
  intro entries
  exact ⟨List.sorted_insertionSort pathLe _, List.perm_insertionSort pathLe _⟩

/-- Witness for C4 (amended) at a concrete file system. -/
theorem gather_dir_filter_sorted_witness :
    gather_pdf_paths
        ⟨fun _ => true, fun _ => true, fun _ => ["B.pdf", "a.PDF", "c.txt"]⟩
        (some ("pdfs")) none =
      Except.ok (gather_dir ["B.pdf", "a.PDF", "c.txt"]) ∧
    (∀ entries : List String,
       List.Sorted pathLe (gather_dir entries) ∧
       (gather_dir entries).Perm
         (entries.filter (fun n => lowerStr (pySuffix n) == (".pdf")))) ∧
    gather_dir ["B.pdf", "a.PDF", "c.txt"] = ["B.pdf", "a.PDF"] :=
  gather_dir_filter_sorted
    ⟨fun _ => true, fun _ => true, fun _ => ["B.pdf", "a.PDF", "c.txt"]⟩ "pdfs" rfl

-- C6 --

/-- A file system on which every path exists; used to exercise
`gather_pdf_paths` with both mode arguments supplied. -/
def fsAll : FS := ⟨fun _ => true, fun _ => true, fun _ => []⟩

/-- C6 counterexample: the claim says the entry point fails unless exactly
one of {directory, file} is supplied, but when both are supplied the code
silently uses the file argument and raises nothing. -/
theorem gather_pdf_paths_both_supplied_counterexample :
    gather_pdf_paths fsAll (some ("d")) (some ("f.pdf")) = Except.ok ["f.pdf"] ∧
    gather_pdf_paths fsAll (some ("d")) (some ("f.pdf")) ≠ Except.error GatherErr.usage ∧
    gather_pdf_paths fsAll (some ("d")) (some ("f.pdf")) ≠ Except.error GatherErr.notFound := by
  refine ⟨rfl, ?_, ?_⟩ <;> intro h <;> cases h

/-- C6 (amended): with neither argument supplied `gather_pdf_paths` raises
a usage error before consulting the file system; when a file is supplied
(the directory argument is then ignored) it raises a not-found error for a
missing path and otherwise returns the one-element list; a supplied but
missing directory also raises a not-found error. -/
theorem gather_pdf_paths_modes :
    (∀ fs : FS, gather_pdf_paths fs none none = Except.error GatherErr.usage) ∧
    (∀ (fs : FS) (d : Option String) (f : String), fs.fileExists f = false →
       gather_pdf_paths fs d (some f) = Except.error GatherErr.notFound) ∧
    (∀ (fs : FS) (d : Option String) (f : String), fs.fileExists f = true →
       gather_pdf_paths fs d (some f) = Except.ok [f]) ∧
    (∀ (fs : FS) (d : String), fs.dirExists d = false →
       gather_pdf_paths fs (some d) none = Except.error GatherErr.notFound) := by
  refine ⟨fun fs => rfl, ?_, ?_, ?_⟩
  · intro fs d f hf; simp [gather_pdf_paths, hf]
  · intro fs d f hf; simp [gather_pdf_paths, hf]
  · intro fs d hd; simp [gather_pdf_paths, hd]

/-- Witness for C6 (amended): single-file mode on an existing path. -/
theorem gather_pdf_paths_modes_witness :
    gather_pdf_paths fsAll none (some ("report.pdf")) = Except.ok ["report.pdf"] :=
  gather_pdf_paths_modes.2.2.1 fsAll none "report.pdf" rfl

-- The aggregator and the CLI driver --

/-- Python dict assignment `m[k] = v`: overwrite in place if the key is
present, else append the new binding. -/
def dictInsert {α : Type} (m : List (String × α)) (k : String) (v : α) :
    List (String × α) :=
  if m.any (fun kv => kv.1 = k) then
    m.map (fun kv => if kv.1 = k then (k, v) else kv)
  else m ++ [(k, v)]

/-- `Path.name`: the last non-empty path component. -/
def baseName (p : String) : String :=
  ((p.splitOn ("/")).filter (fun s => s ≠ "")).getLastD ""

/-- `run_search`: fold the per-file searcher over the documents, keying the
aggregate dict by each document's name.  A document is `(path-name, pages)`. -/
def run_search (docs : List (String × List (Option String))) (keywords : List String) :
    List (String × List (String × List Nat)) :=
  docs.foldl (fun acc doc => dictInsert acc doc.1 (search_pdf doc.2 keywords)) []

/-- The observable outcome of `main` after argument parsing: an early
informational return, or a completed search whose results get written. -/
inductive MainResult where
  | noKeywords
  | noPdfs
  | wrote (results : List (String × List (String × List Nat)))
deriving DecidableEq

/-- Whether an outcome writes any output file: only a completed search
does (`write_json` always runs then, `write_csv` optionally). -/
def writesOutput : MainResult → Bool
  | MainResult.wrote _ => true
  | _ => false

/-- `main` after `parse_args`: load keywords (returning early when none),
resolve the PDF paths (errors propagate), return early when no PDF was
found, otherwise run the search on the extracted documents.  `extract`
abstracts the external PDF text extractor. -/
def mainModel (keyText : String) (fs : FS) (pdf_dir pdf_file : Option String)
    (extract : String → List (Option String)) : Except GatherErr MainResult :=
  let keywords := load_keywords keyText
  if keywords.isEmpty then Except.ok MainResult.noKeywords
  else
    match gather_pdf_paths fs pdf_dir pdf_file with
    | Except.error e => Except.error e
    | Except.ok paths =>
      if paths.isEmpty then Except.ok MainResult.noPdfs
      else Except.ok (MainResult.wrote
        (run_search (paths.map (fun p => (baseName p, extract p))) keywords))

-- C9 --

/-- C9: an empty keyword list, or an empty resolved path list, makes the
run return early and successfully (an `ok` outcome, not an error) with an
outcome that writes no output file. -/
theorem main_early_exit_no_output :
    (∀ (keyText : String) (fs : FS) (pdf_dir pdf_file : Option String)
       (extract : String → List (Option String)),
       load_keywords keyText = [] →
       mainModel keyText fs pdf_dir pdf_file extract = Except.ok MainResult.noKeywords) ∧
    (∀ (keyText : String) (fs : FS) (pdf_dir pdf_file : Option String)
       (extract : String → List (Option String)),
       load_keywords keyText ≠ [] →
       gather_pdf_paths fs pdf_dir pdf_file = Except.ok [] →
       mainModel keyText fs pdf_dir pdf_file extract = Except.ok MainResult.noPdfs) ∧
    writesOutput MainResult.noKeywords = false ∧
    writesOutput MainResult.noPdfs = false := by
  refine ⟨?_, ?_, rfl, rfl⟩
  · intro keyText fs pdf_dir pdf_file extract hk
    simp [mainModel, hk]
  · intro keyText fs pdf_dir pdf_file extract hk hg
    simp [mainModel, List.isEmpty_iff, hk, hg]

/-- Witness for C9: an all-commas keywords file loads to no keywords and
the run stops with the `noKeywords` outcome. -/
theorem main_early_exit_no_output_witness :
    mainModel (",,,") fsAll none (some ("f.pdf")) (fun _ => []) =
      Except.ok MainResult.noKeywords :=
  main_early_exit_no_output.1 (",,,") fsAll none (some ("f.pdf")) (fun _ => [])
    (by decide)

-- The CSV writer --

/-- Decimal digits of `n` — the characters of Python `str(n)` for a
non-negative integer.  Fuel-based recursion (any fuel above `n` is enough)
keeps the definition structural, hence executable inside proofs. -/
def natToDigitsAux : Nat → Nat → List Char
  | 0, _ => []
  | fuel + 1, n =>
    if n < 10 then [Nat.digitChar n]
    else natToDigitsAux fuel (n / 10) ++ [Nat.digitChar (n % 10)]

/-- `str(n)` as a character list. -/
def natToDigits (n : Nat) : List Char := natToDigitsAux (n + 1) n

/-- Parse a decimal digit string back to a number. -/
def digitsToNat (l : List Char) : Nat := l.foldl (fun a c => 10 * a + (c.toNat - 48)) 0

/-- `", ".join(...)` over already rendered items. -/
def sepJoin : List (List Char) → List Char
  | [] => []
  | [x] => x
  | x :: y :: t => x ++ ',' :: ' ' :: sepJoin (y :: t)

/-- The `pages` CSV field: `", ".join(str(p) for p in pages)`. -/
def pagesToString (ps : List Nat) : String := String.mk (sepJoin (ps.map natToDigits))

/-- `write_csv`: the rows handed to the CSV writer — one header row, then
one row per (filename, keyword) pair of the aggregate, in order, with the
page numbers joined by ", ". -/
def write_csv (data : List (String × List (String × List Nat))) : List (List String) :=
  ["filename", "keyword", "pages"] ::
    data.flatMap (fun fm => fm.2.map (fun kp => [fm.1, kp.1, pagesToString kp.2]))

/-- Split on the two-character separator ", " (Python `s.split(", ")`),
scanning left to right; `cur` is the reversed piece being accumulated. -/
def sepSplitGo : List Char → List Char → List (List Char)
  | [], cur => [cur.reverse]
  | [c], cur => [(c :: cur).reverse]
  | c :: d :: rest, cur =>
    if c = ',' ∧ d = ' ' then cur.reverse :: sepSplitGo rest []
    else sepSplitGo (d :: rest) (c :: cur)

/-- Read a `pages` CSV field back as the page-number list, the empty field
standing for the empty list (the spec's reading convention). -/
def splitPagesField (s : String) : List Nat :=
  if s = "" then [] else (sepSplitGo s.data []).map digitsToNat

theorem digitChar_isDigit {d : Nat} (h : d < 10) : (Nat.digitChar d).isDigit = true := by
  interval_cases d <;> decide

theorem digitChar_toNat {d : Nat} (h : d < 10) : (Nat.digitChar d).toNat = 48 + d := by
  interval_cases d <;> decide

theorem natToDigitsAux_all_digits :
    ∀ fuel n, n < fuel → ∀ c ∈ natToDigitsAux fuel n, c.isDigit = true := by
  intro fuel
  induction fuel with
  | zero => intro n h; omega
  | succ f ih =>
    intro n h c hc
    simp only [natToDigitsAux] at hc
    by_cases h10 : n < 10
    · rw [if_pos h10, List.mem_singleton] at hc
      subst hc
      exact digitChar_isDigit h10
    · rw [if_neg h10] at hc
      have hdiv : n / 10 < n := Nat.div_lt_self (by omega) (by omega)
      rcases List.mem_append.1 hc with h2 | h2
      · exact ih (n / 10) (by omega) c h2
      · rw [List.mem_singleton] at h2
        subst h2
        exact digitChar_isDigit (Nat.mod_lt n (by omega))

theorem natToDigitsAux_ne_nil : ∀ fuel n, n < fuel → natToDigitsAux fuel n ≠ [] := by
  intro fuel
  cases fuel with
  | zero => intro n h; omega
  | succ f =>
    intro n h
    simp only [natToDigitsAux]
    by_cases h10 : n < 10
    · rw [if_pos h10]; simp
    · rw [if_neg h10]; simp

theorem digitsToNat_natToDigitsAux :
    ∀ fuel n, n < fuel → digitsToNat (natToDigitsAux fuel n) = n := by
  intro fuel
  induction fuel with
  | zero => intro n h; omega
  | succ f ih =>
    intro n h
    simp only [natToDigitsAux]
    by_cases h10 : n < 10
    · rw [if_pos h10]
      simp only [digitsToNat, List.foldl_cons, List.foldl_nil]
      rw [digitChar_toNat h10]
      omega
    · rw [if_neg h10]
      have hdiv : n / 10 < n := Nat.div_lt_self (by omega) (by omega)
      have hrec := ih (n / 10) (by omega)
      simp only [digitsToNat, List.foldl_append, List.foldl_cons, List.foldl_nil] at hrec ⊢
      rw [hrec, digitChar_toNat (Nat.mod_lt n (by omega))]
      have := Nat.div_add_mod n 10
      omega

theorem natToDigits_all_digits (n : Nat) : ∀ c ∈ natToDigits n, c.isDigit = true :=
  natToDigitsAux_all_digits (n + 1) n (by omega)

theorem natToDigits_ne_nil (n : Nat) : natToDigits n ≠ [] :=
  natToDigitsAux_ne_nil (n + 1) n (by omega)

theorem digitsToNat_natToDigits (n : Nat) : digitsToNat (natToDigits n) = n :=
  digitsToNat_natToDigitsAux (n + 1) n (by omega)

theorem sepSplitGo_nil (acc : List Char) : sepSplitGo [] acc = [acc.reverse] := rfl

theorem sepSplitGo_step {c : Char} (hc : ¬ c = ',') (l acc : List Char) :
    sepSplitGo (c :: l) acc = sepSplitGo l (c :: acc) := by
  cases l with
  | nil => rfl
  | cons d t =>
    show (if c = ',' ∧ d = ' ' then acc.reverse :: sepSplitGo t []
          else sepSplitGo (d :: t) (c :: acc)) = sepSplitGo (d :: t) (c :: acc)
    rw [if_neg (fun h => hc h.1)]

theorem sepSplitGo_sep (l acc : List Char) :
    sepSplitGo (',' :: ' ' :: l) acc = acc.reverse :: sepSplitGo l [] := by
  show (if (',' = ',') ∧ (' ' = ' ') then acc.reverse :: sepSplitGo l []
        else sepSplitGo (' ' :: l) (',' :: acc)) = acc.reverse :: sepSplitGo l []
  rw [if_pos ⟨rfl, rfl⟩]

theorem sepSplitGo_digits_append {x : List Char} (hx : ∀ c ∈ x, c.isDigit = true) :
    ∀ l acc, sepSplitGo (x ++ l) acc = sepSplitGo l (x.reverse ++ acc) := by
  induction x with
  | nil => intro l acc; simp
  | cons c x2 ih =>
    intro l acc
    have hc : c.isDigit = true := hx c (List.mem_cons_self c x2)
    have hcomma : ¬ c = ',' := by
      intro h; subst h; simp at hc
    rw [List.cons_append, sepSplitGo_step hcomma]
    rw [ih (fun d hd => hx d (List.mem_cons_of_mem c hd)) l (c :: acc)]
    simp

theorem sepSplit_join :
    ∀ pieces : List (List Char),
      (∀ p ∈ pieces, p ≠ [] ∧ ∀ c ∈ p, c.isDigit = true) → pieces ≠ [] →
      sepSplitGo (sepJoin pieces) [] = pieces := by
  intro pieces
  induction pieces with
  | nil => intro _ h; exact absurd rfl h
  | cons x rest ih =>
    intro hp _
    cases rest with
    | nil =>
      have hx := (hp x (List.mem_cons_self x [])).2
      show sepSplitGo (sepJoin [x]) [] = [x]
      rw [show sepJoin [x] = x ++ [] by simp [sepJoin]]
      rw [sepSplitGo_digits_append hx [] [], sepSplitGo_nil]
      simp
    | cons y t =>
      have hx := (hp x (List.mem_cons_self x (y :: t))).2
      show sepSplitGo (x ++ ',' :: ' ' :: sepJoin (y :: t)) [] = x :: y :: t
      rw [sepSplitGo_digits_append hx (',' :: ' ' :: sepJoin (y :: t)) [],
        List.append_nil, sepSplitGo_sep, List.reverse_reverse]
      rw [ih (fun p hmem => hp p (List.mem_cons_of_mem x hmem)) (by simp)]

theorem pagesToString_empty_iff (ps : List Nat) : pagesToString ps = "" ↔ ps = [] := by
  cases ps with
  | nil => simp [pagesToString, sepJoin]
  | cons p t =>
    simp only [pagesToString]
    constructor
    · intro h
      have hdata := congrArg String.data h
      simp only [String.data] at hdata
      cases t with
      | nil =>
        exact absurd hdata (by simpa [sepJoin] using natToDigits_ne_nil p)
      | cons q t2 =>
        simp only [List.map_cons, sepJoin] at hdata
        rcases List.append_eq_nil.1 hdata with ⟨h1, _⟩
        exact absurd h1 (natToDigits_ne_nil p)
    · intro h; cases h

theorem pages_field_roundtrip (ps : List Nat) : splitPagesField (pagesToString ps) = ps := by
  cases ps with
  | nil => rfl
  | cons p t =>
    have hne : pagesToString (p :: t) ≠ "" := by
      rw [Ne, pagesToString_empty_iff]; simp
    rw [splitPagesField, if_neg hne]
    have hdata : (pagesToString (p :: t)).data = sepJoin ((p :: t).map natToDigits) := rfl
    rw [hdata, sepSplit_join _ ?_ (by simp)]
    · rw [List.map_map]
      have : (digitsToNat ∘ natToDigits) = id := funext fun n => digitsToNat_natToDigits n
      rw [this, List.map_id]
    · intro piece hmem
      rcases List.mem_map.1 hmem with ⟨n, _, rfl⟩
      exact ⟨natToDigits_ne_nil n, natToDigits_all_digits n⟩

theorem dictInsert_append {α : Type} (m : List (String × α)) (k : String) (v : α)
    (h : ∀ kv ∈ m, kv.1 ≠ k) : dictInsert m k v = m ++ [(k, v)] := by
  unfold dictInsert
  have hcond : ¬ (m.any fun kv => kv.1 = k) = true := by
    simp only [List.any_eq_true, decide_eq_true_eq, not_exists, not_and]
    intro kv hkv
    exact h kv hkv
  rw [if_neg hcond]

theorem foldl_dictInsert_append {α : Type} :
    ∀ (l acc : List (String × α)),
      (∀ kv ∈ l, ∀ kv2 ∈ acc, kv2.1 ≠ kv.1) →
      (l.map Prod.fst).Nodup →
      l.foldl (fun a kv => dictInsert a kv.1 kv.2) acc = acc ++ l := by
  intro l
  induction l with
  | nil => intro acc _ _; simp
  | cons kv t ih =>
    intro acc hdisj hnodup
    simp only [List.foldl_cons]
    rw [dictInsert_append acc kv.1 kv.2
      (fun kv2 hkv2 => hdisj kv (List.mem_cons_self kv t) kv2 hkv2)]
    rw [ih (acc ++ [kv]) ?_ ?_]
    · simp
    · intro kv2 hkv2 kv3 hkv3
      rcases List.mem_append.1 hkv3 with h | h
      · exact hdisj kv2 (List.mem_cons_of_mem kv hkv2) kv3 h
      · rw [List.mem_singleton] at h
        subst h
        intro heq
        exact (List.nodup_cons.1 (by simpa using hnodup)).1
          (heq ▸ List.mem_map_of_mem Prod.fst hkv2)
    · exact (List.nodup_cons.1 (by simpa using hnodup)).2

theorem run_search_eq_map (docs : List (String × List (Option String)))
    (kws : List String) (hnd : (docs.map Prod.fst).Nodup) :
    run_search docs kws = docs.map (fun d => (d.1, search_pdf d.2 kws)) := by
  unfold run_search
  have hfold := List.foldl_map (fun d : String × List (Option String) =>
      (d.1, search_pdf d.2 kws))
    (fun (a : List (String × List (String × List Nat))) kv => dictInsert a kv.1 kv.2)
    docs []
  rw [show docs.foldl
        (fun acc doc => dictInsert acc doc.1 (search_pdf doc.2 kws)) [] =
      (docs.map (fun d => (d.1, search_pdf d.2 kws))).foldl
        (fun a kv => dictInsert a kv.1 kv.2) [] from hfold.symm]
  rw [foldl_dictInsert_append _ [] (by simp) ?_]
  · simp
  · rw [List.map_map]
    exact hnd

-- C7 --

/-- C7: the CSV report has one header row plus one data row per
(filename, keyword) pair of the aggregate; for an aggregate produced by
`run_search` over documents with distinct names that is
(number of files) × (number of distinct keywords) data rows; each row's
`pages` field splits on ", " back into exactly the page list (the empty
field standing for the empty list); and a concrete aggregate renders as
expected. -/
theorem write_csv_rows_and_pages_roundtrip :
    (∀ data : List (String × List (String × List Nat)),
       (write_csv data).length = 1 + (data.map (fun fm => fm.2.length)).sum) ∧
    (∀ (docs : List (String × List (Option String))) (kws : List String),
       (docs.map Prod.fst).Nodup →
       (write_csv (run_search docs kws)).length =
         1 + docs.length * (dictKeys kws).length) ∧
    (∀ ps : List Nat, splitPagesField (pagesToString ps) = ps) ∧
    write_csv [("f.pdf", [("a", [1, 2]), ("b", [])])] =
      [["filename", "keyword", "pages"], ["f.pdf", "a", "1, 2"], ["f.pdf", "b", ""]] := by
  have hlen : ∀ data : List (String × List (String × List Nat)),
      (write_csv data).length = 1 + (data.map (fun fm => fm.2.length)).sum := by
    intro data
    simp only [write_csv, List.length_cons, List.length_flatMap]
    have hfun : (List.length ∘ fun fm : String × List (String × List Nat) =>
        List.map (fun kp => [fm.1, kp.1, pagesToString kp.2]) fm.2) =
        (fun fm : String × List (String × List Nat) => fm.2.length) :=
      funext fun fm => by simp
    rw [hfun, Nat.add_comm]
  refine ⟨hlen, ?_, pages_field_roundtrip, by decide⟩
  intro docs kws hnd
  rw [hlen, run_search_eq_map docs kws hnd]
  simp only [List.map_map]
  rw [show ((fun fm : String × List (String × List Nat) => fm.2.length) ∘
        fun d : String × List (Option String) => (d.1, search_pdf d.2 kws)) =
      (fun _ => (dictKeys kws).length) from funext fun d => by
        simp [Function.comp, search_pdf]]
  rw [List.map_const', List.sum_replicate, smul_eq_mul]

/-- Witness for C7's row-count clause at a concrete two-file, two-keyword
run (duplicate keyword collapsed). -/
theorem write_csv_rows_and_pages_roundtrip_witness :
    (write_csv (run_search [("a.pdf", [some ("xy")]), ("b.pdf", [])] ["x", "y", "x"])).length =
      1 + 2 * (dictKeys ["x", "y", "x"]).length :=
  write_csv_rows_and_pages_roundtrip.2.1 [("a.pdf", [some ("xy")]), ("b.pdf", [])]
    ["x", "y", "x"] (by decide)

-- The JSON writer and its read-back --

/-- An opening brace character. -/
def lbrace : Char := Char.ofNat 123

/-- A closing brace character. -/
def rbrace : Char := Char.ofNat 125

/-- One file's keyword-to-pages mapping. -/
abbrev MatchMap := List (String × List Nat)

/-- The aggregate report: filename to per-keyword page lists. -/
abbrev Aggregate := List (String × MatchMap)

/-- JSON string escaping as `json.dumps` performs it (`ensure_ascii=False`):
backslash, quote and the short control escapes, `\u00XX` for the remaining
characters below 0x20, everything else written raw. -/
def escChar (c : Char) : List Char :=
  if c = '\\' then ['\\', '\\']
  else if c = '"' then ['\\', '"']
  else if c = '\x08' then ['\\', 'b']
  else if c = '\x0c' then ['\\', 'f']
  else if c = '\n' then ['\\', 'n']
  else if c = '\r' then ['\\', 'r']
  else if c = '\t' then ['\\', 't']
  else if c.toNat < 32 then
    ['\\', 'u', '0', '0', Nat.digitChar (c.toNat / 16), Nat.digitChar (c.toNat % 16)]
  else [c]

/-- Escape every character of a string body. -/
def escList (l : List Char) : List Char := l.flatMap escChar

/-- A JSON string literal: quote, escaped body, quote. -/
def qstr (s : String) : List Char := '"' :: escList s.data ++ ['"']

/-- The page-list items as `json.dumps(..., indent=2)` lays them out at
nesting depth 3: each number on its own line indented by 6 spaces,
separated by commas. -/
def renderPagesItems : List Nat → List Char
  | [] => []
  | [n] => '\n' :: List.replicate 6 ' ' ++ natToDigits n
  | n :: m :: t =>
    '\n' :: List.replicate 6 ' ' ++ natToDigits n ++ ',' :: renderPagesItems (m :: t)

/-- A page list as rendered by `json.dumps(..., indent=2)`: `[]` when
empty, else the items block closed by a 4-space-indented bracket. -/
def renderPages : List Nat → List Char
  | [] => ['[', ']']
  | n :: t => '[' :: renderPagesItems (n :: t) ++ '\n' :: List.replicate 4 ' ' ++ [']']

/-- The keyword fields of one file's object, indented by 4 spaces. -/
def renderInnerItems : MatchMap → List Char
  | [] => []
  | [kp] => '\n' :: List.replicate 4 ' ' ++ qstr kp.1 ++ ':' :: ' ' :: renderPages kp.2
  | kp :: kp2 :: t =>
    '\n' :: List.replicate 4 ' ' ++ qstr kp.1 ++ ':' :: ' ' :: renderPages kp.2 ++
      ',' :: renderInnerItems (kp2 :: t)

/-- One file's keyword object. -/
def renderInner : MatchMap → List Char
  | [] => [lbrace, rbrace]
  | kp :: t =>
    lbrace :: renderInnerItems (kp :: t) ++ '\n' :: List.replicate 2 ' ' ++ [rbrace]

/-- The filename fields of the top-level object, indented by 2 spaces. -/
def renderAggItems : Aggregate → List Char
  | [] => []
  | [fm] => '\n' :: List.replicate 2 ' ' ++ qstr fm.1 ++ ':' :: ' ' :: renderInner fm.2
  | fm :: fm2 :: t =>
    '\n' :: List.replicate 2 ' ' ++ qstr fm.1 ++ ':' :: ' ' :: renderInner fm.2 ++
      ',' :: renderAggItems (fm2 :: t)

/-- The whole report object. -/
def renderAgg : Aggregate → List Char
  | [] => [lbrace, rbrace]
  | fm :: t => lbrace :: renderAggItems (fm :: t) ++ ['\n', rbrace]

/-- `write_json`: the exact text `json.dumps(data, indent=2,
ensure_ascii=False)` produces for the aggregate report (the text written
to the output file). -/
def write_json (a : Aggregate) : String := String.mk (renderAgg a)

/-- Value of one lowercase hexadecimal digit. -/
def hexVal (c : Char) : Option Nat :=
  if c.isDigit then some (c.toNat - 48)
  else if 'a' ≤ c ∧ c ≤ 'f' then some (c.toNat - 87)
  else none

/-- Parse a JSON string body up to the closing quote, undoing the escapes
of `escChar`; `acc` is the reversed content read so far.  The fuel only
bounds recursion depth; any fuel above the input length is enough. -/
def parseQBodyF : Nat → List Char → List Char → Option (List Char × List Char)
  | 0, _, _ => none
  | fuel + 1, cs, acc =>
    match cs with
    | [] => none
    | c :: rest =>
      if c = '"' then some (acc.reverse, rest)
      else if c = '\\' then
        match rest with
        | [] => none
        | e :: rest2 =>
          if e = '\\' then parseQBodyF fuel rest2 ('\\' :: acc)
          else if e = '"' then parseQBodyF fuel rest2 ('"' :: acc)
          else if e = 'b' then parseQBodyF fuel rest2 ('\x08' :: acc)
          else if e = 'f' then parseQBodyF fuel rest2 ('\x0c' :: acc)
          else if e = 'n' then parseQBodyF fuel rest2 ('\n' :: acc)
          else if e = 'r' then parseQBodyF fuel rest2 ('\r' :: acc)
          else if e = 't' then parseQBodyF fuel rest2 ('\t' :: acc)
          else if e = 'u' then
            match rest2 with
            | h1 :: h2 :: h3 :: h4 :: rest3 =>
              match hexVal h1, hexVal h2, hexVal h3, hexVal h4 with
              | some v1, some v2, some v3, some v4 =>
                parseQBodyF fuel rest3
                  (Char.ofNat (4096 * v1 + 256 * v2 + 16 * v3 + v4) :: acc)
              | _, _, _, _ => none
            | _ => none
          else none
      else parseQBodyF fuel rest (c :: acc)

/-- Parse a JSON string literal. -/
def parseQStr (cs : List Char) : Option (String × List Char) :=
  match cs with
  | [] => none
  | c :: rest =>
    if c = '"' then
      match parseQBodyF (rest.length + 1) rest [] with
      | some (body, rest2) => some (String.mk body, rest2)
      | none => none
    else none

/-- Parse a run of decimal digits. -/
def parseNum (cs : List Char) : Option (Nat × List Char) :=
  if cs.takeWhile Char.isDigit = [] then none
  else some (digitsToNat (cs.takeWhile Char.isDigit), cs.dropWhile Char.isDigit)

/-- Consume an expected literal character sequence. -/
def expectChars : List Char → List Char → Option (List Char)
  | [], cs => some cs
  | _ :: _, [] => none
  | p :: ps, c :: cs => if c = p then expectChars ps cs else none

/-- Parse the non-empty item block of a page list (depth-3 layout),
including the closing `]`. -/
def parsePagesItemsF : Nat → List Char → Option (List Nat × List Char)
  | 0, _ => none
  | fuel + 1, cs =>
    match expectChars ('\n' :: List.replicate 6 ' ') cs with
    | none => none
    | some cs1 =>
      match parseNum cs1 with
      | none => none
      | some (n, cs2) =>
        match cs2 with
        | [] => none
        | c :: cs3 =>
          if c = ',' then
            match parsePagesItemsF fuel cs3 with
            | some (ns, cs4) => some (n :: ns, cs4)
            | none => none
          else
            match expectChars ('\n' :: (List.replicate 4 ' ' ++ [']'])) cs2 with
            | none => none
            | some cs4 => some ([n], cs4)

/-- Parse a page list. -/
def parsePages (cs : List Char) : Option (List Nat × List Char) :=
  match cs with
  | c :: d :: rest2 =>
    if c = '[' then
      if d = ']' then some ([], rest2)
      else parsePagesItemsF cs.length (d :: rest2)
    else none
  | _ => none

/-- Parse the non-empty field block of one file's keyword object,
including the closing 2-space-indented brace. -/
def parseInnerItemsF : Nat → List Char → Option (MatchMap × List Char)
  | 0, _ => none
  | fuel + 1, cs =>
    match expectChars ('\n' :: List.replicate 4 ' ') cs with
    | none => none
    | some cs1 =>
      match parseQStr cs1 with
      | none => none
      | some (kw, cs2) =>
        match expectChars [':', ' '] cs2 with
        | none => none
        | some cs3 =>
          match parsePages cs3 with
          | none => none
          | some (ps, cs4) =>
            match cs4 with
            | [] => none
            | c :: cs5 =>
              if c = ',' then
                match parseInnerItemsF fuel cs5 with
                | some (m, cs6) => some ((kw, ps) :: m, cs6)
                | none => none
              else
                match expectChars ('\n' :: (List.replicate 2 ' ' ++ [rbrace])) cs4 with
                | none => none
                | some cs6 => some ([(kw, ps)], cs6)

/-- Parse one file's keyword object. -/
def parseInner (cs : List Char) : Option (MatchMap × List Char) :=
  match cs with
  | c :: d :: rest2 =>
    if c = lbrace then
      if d = rbrace then some ([], rest2)
      else parseInnerItemsF cs.length (d :: rest2)
    else none
  | _ => none

/-- Parse the non-empty field block of the top-level object, including the
closing unindented brace. -/
def parseAggItemsF : Nat → List Char → Option (Aggregate × List Char)
  | 0, _ => none
  | fuel + 1, cs =>
    match expectChars ('\n' :: List.replicate 2 ' ') cs with
    | none => none
    | some cs1 =>
      match parseQStr cs1 with
      | none => none
      | some (fname, cs2) =>
        match expectChars [':', ' '] cs2 with
        | none => none
        | some cs3 =>
          match parseInner cs3 with
          | none => none
          | some (m, cs4) =>
            match cs4 with
            | [] => none
            | c :: cs5 =>
              if c = ',' then
                match parseAggItemsF fuel cs5 with
                | some (a, cs6) => some ((fname, m) :: a, cs6)
                | none => none
              else
                match expectChars ['\n', rbrace] cs4 with
                | none => none
                | some cs6 => some ([(fname, m)], cs6)

/-- Parse the top-level report object. -/
def parseAggTop (cs : List Char) : Option (Aggregate × List Char) :=
  match cs with
  | c :: d :: rest2 =>
    if c = lbrace then
      if d = rbrace then some ([], rest2)
      else parseAggItemsF cs.length (d :: rest2)
    else none
  | _ => none

/-- Build a Python dict from parsed key-value pairs in order (later
duplicates overwrite earlier ones, as `json.loads` does). -/
def dictNorm {α : Type} (l : List (String × α)) : List (String × α) :=
  l.foldl (fun acc kv => dictInsert acc kv.1 kv.2) []

/-- Modelled from the spec: the external JSON reader (`json.loads`, which
is not part of this repository) that "parsing the written JSON text back"
refers to, restricted to the grammar `write_json` emits: the top-level
object of objects of number arrays, with objects built as Python dicts.
Rejects any trailing text. -/
def parse_json (s : String) : Option Aggregate :=
  match parseAggTop s.data with
  | some (a, []) => some (dictNorm (a.map (fun fm => (fm.1, dictNorm fm.2))))
  | _ => none

theorem expectChars_append : ∀ (pat l : List Char), expectChars pat (pat ++ l) = some l := by
  intro pat
  induction pat with
  | nil => intro l; rfl
  | cons p ps ih =>
    intro l
    show (if p = p then expectChars ps (ps ++ l) else none) = some l
    rw [if_pos rfl]
    exact ih l

theorem escChar_length_pos (c : Char) : 1 ≤ (escChar c).length := by
  unfold escChar
  split_ifs <;> simp

theorem hexVal_digitChar {d : Nat} (h : d < 16) : hexVal (Nat.digitChar d) = some d := by
  interval_cases d <;> decide

theorem parseQBodyF_escList :
    ∀ (l : List Char) (fuel : Nat) (acc rest : List Char),
      (escList l).length + 1 ≤ fuel →
      parseQBodyF fuel (escList l ++ '"' :: rest) acc = some (acc.reverse ++ l, rest) := by
  intro l
  induction l with
  | nil =>
    intro fuel acc rest hf
    cases fuel with
    | zero => simp [escList] at hf
    | succ f => simp [escList, parseQBodyF]
  | cons c l2 ih =>
    intro fuel acc rest hf
    have hesc0 : escList (c :: l2) = escChar c ++ escList l2 := by simp [escList]
    rw [hesc0] at hf ⊢
    cases fuel with
    | zero =>
      have := escChar_length_pos c
      simp only [List.length_append] at hf
      omega
    | succ f =>
      by_cases h1 : c = '\\'
      · subst h1
        rw [show (escChar '\\' ++ escList l2) ++ '"' :: rest =
            '\\' :: '\\' :: (escList l2 ++ '"' :: rest) by simp [escChar]]
        have hb : (escList l2).length + 1 ≤ f := by
          simp only [List.length_append, show (escChar '\\').length = 2 from rfl] at hf
          omega
        simp [parseQBodyF, ih f ('\\' :: acc) rest hb]
      · by_cases h2 : c = '"'
        · subst h2
          rw [show (escChar '"' ++ escList l2) ++ '"' :: rest =
              '\\' :: '"' :: (escList l2 ++ '"' :: rest) by simp [escChar]]
          have hb : (escList l2).length + 1 ≤ f := by
            simp only [List.length_append, show (escChar '"').length = 2 from rfl] at hf
            omega
          simp [parseQBodyF, ih f ('"' :: acc) rest hb]
        · by_cases h3 : c = '\x08'
          · subst h3
            rw [show (escChar '\x08' ++ escList l2) ++ '"' :: rest =
                '\\' :: 'b' :: (escList l2 ++ '"' :: rest) by simp [escChar]]
            have hb : (escList l2).length + 1 ≤ f := by
              simp only [List.length_append,
                show (escChar '\x08').length = 2 from rfl] at hf
              omega
            simp [parseQBodyF, ih f ('\x08' :: acc) rest hb]
          · by_cases h4 : c = '\x0c'
            · subst h4
              rw [show (escChar '\x0c' ++ escList l2) ++ '"' :: rest =
                  '\\' :: 'f' :: (escList l2 ++ '"' :: rest) by simp [escChar]]
              have hb : (escList l2).length + 1 ≤ f := by
                simp only [List.length_append,
                  show (escChar '\x0c').length = 2 from rfl] at hf
                omega
              simp [parseQBodyF, ih f ('\x0c' :: acc) rest hb]
            · by_cases h5 : c = '\n'
              · subst h5
                rw [show (escChar '\n' ++ escList l2) ++ '"' :: rest =
                    '\\' :: 'n' :: (escList l2 ++ '"' :: rest) by simp [escChar]]
                have hb : (escList l2).length + 1 ≤ f := by
                  simp only [List.length_append,
                    show (escChar '\n').length = 2 from rfl] at hf
                  omega
                simp [parseQBodyF, ih f ('\n' :: acc) rest hb]
              · by_cases h6 : c = '\r'
                · subst h6
                  rw [show (escChar '\r' ++ escList l2) ++ '"' :: rest =
                      '\\' :: 'r' :: (escList l2 ++ '"' :: rest) by simp [escChar]]
                  have hb : (escList l2).length + 1 ≤ f := by
                    simp only [List.length_append,
                      show (escChar '\r').length = 2 from rfl] at hf
                    omega
                  simp [parseQBodyF, ih f ('\r' :: acc) rest hb]
                · by_cases h7 : c = '\t'
                  · subst h7
                    rw [show (escChar '\t' ++ escList l2) ++ '"' :: rest =
                        '\\' :: 't' :: (escList l2 ++ '"' :: rest) by simp [escChar]]
                    have hb : (escList l2).length + 1 ≤ f := by
                      simp only [List.length_append,
                        show (escChar '\t').length = 2 from rfl] at hf
                      omega
                    simp [parseQBodyF, ih f ('\t' :: acc) rest hb]
                  · by_cases h8 : c.toNat < 32
                    · have hesc : escChar c = ['\\', 'u', '0', '0',
                          Nat.digitChar (c.toNat / 16), Nat.digitChar (c.toNat % 16)] := by
                        simp only [escChar]
                        rw [if_neg h1, if_neg h2, if_neg h3, if_neg h4, if_neg h5,
                          if_neg h6, if_neg h7, if_pos h8]
                      have hb : (escList l2).length + 1 ≤ f := by
                        simp only [hesc, List.length_append, List.length_cons,
                          List.length_nil] at hf
                        omega
                      rw [show (escChar c ++ escList l2) ++ '"' :: rest =
                          '\\' :: 'u' :: '0' :: '0' :: Nat.digitChar (c.toNat / 16) ::
                            Nat.digitChar (c.toNat % 16) :: (escList l2 ++ '"' :: rest) by
                        simp [hesc]]
                      simp only [parseQBodyF]
                      rw [show hexVal '0' = some 0 from rfl,
                        hexVal_digitChar (show c.toNat / 16 < 16 by omega),
                        hexVal_digitChar (show c.toNat % 16 < 16 by omega)]
                      simp only []
                      rw [show 4096 * 0 + 256 * 0 + 16 * (c.toNat / 16) + c.toNat % 16 =
                          c.toNat by omega, Char.ofNat_toNat]
                      rw [ih f (c :: acc) rest hb]
                      simp
                    · have hesc : escChar c = [c] := by
                        simp only [escChar]
                        rw [if_neg h1, if_neg h2, if_neg h3, if_neg h4, if_neg h5,
                          if_neg h6, if_neg h7, if_neg h8]
                      have hb : (escList l2).length + 1 ≤ f := by
                        simp only [hesc, List.length_append, List.length_cons,
                          List.length_nil] at hf
                        omega
                      rw [show (escChar c ++ escList l2) ++ '"' :: rest =
                          c :: (escList l2 ++ '"' :: rest) by simp [hesc]]
                      simp only [parseQBodyF]
                      rw [if_neg h2, if_neg h1]
                      rw [ih f (c :: acc) rest hb]
                      simp

theorem parseQStr_qstr (s : String) (rest : List Char) :
    parseQStr (qstr s ++ rest) = some (s, rest) := by
  cases s with
  | mk sdata =>
    rw [show qstr (String.mk sdata) ++ rest =
        '"' :: (escList sdata ++ '"' :: rest) by simp [qstr]]
    simp only [parseQStr]
    rw [if_pos trivial]
    rw [parseQBodyF_escList sdata ((escList sdata ++ '"' :: rest).length + 1) [] rest
      (by simp only [List.length_append, List.length_cons]; omega)]
    simp

theorem takeWhile_append_all {p : Char → Bool} :
    ∀ (l rest : List Char), (∀ c ∈ l, p c = true) →
      (l ++ rest).takeWhile p = l ++ rest.takeWhile p ∧
      (l ++ rest).dropWhile p = rest.dropWhile p := by
  intro l
  induction l with
  | nil => intro rest _; simp
  | cons c t ih =>
    intro rest hall
    have hc := hall c (List.mem_cons_self c t)
    have hrec := ih rest (fun d hd => hall d (List.mem_cons_of_mem c hd))
    simp [List.takeWhile_cons, List.dropWhile_cons, hc, hrec.1, hrec.2]

theorem parseNum_digits {c : Char} (hc : c.isDigit = false) (n : Nat) (t : List Char) :
    parseNum (natToDigits n ++ c :: t) = some (n, c :: t) := by
  have h1 := takeWhile_append_all (natToDigits n) (c :: t) (natToDigits_all_digits n)
  unfold parseNum
  rw [h1.1, h1.2]
  rw [show (c :: t).takeWhile Char.isDigit = [] by simp [List.takeWhile_cons, hc]]
  rw [show (c :: t).dropWhile Char.isDigit = c :: t by simp [List.dropWhile_cons, hc]]
  rw [List.append_nil]
  rw [if_neg (natToDigits_ne_nil n), digitsToNat_natToDigits]

theorem parsePagesItems_render (ps : List Nat) :
    ∀ (fuel : Nat) (rest : List Char), ps ≠ [] → ps.length ≤ fuel →
    parsePagesItemsF fuel
      (renderPagesItems ps ++ ('\n' :: (List.replicate 4 ' ' ++ [']'])) ++ rest) =
      some (ps, rest) := by
  match ps with
  | [] => intro fuel rest h _; exact absurd rfl h
  | [n] =>
    intro fuel rest _ hf
    cases fuel with
    | zero => simp at hf
    | succ f =>
      rw [show renderPagesItems [n] ++ ('\n' :: (List.replicate 4 ' ' ++ [']'])) ++ rest =
          ('\n' :: List.replicate 6 ' ') ++
            (natToDigits n ++ '\n' :: ((List.replicate 4 ' ' ++ [']']) ++ rest)) by
        simp [renderPagesItems]]
      simp only [parsePagesItemsF]
      rw [expectChars_append]
      dsimp only
      rw [parseNum_digits (show ('\n').isDigit = false by decide) n
        ((List.replicate 4 ' ' ++ [']']) ++ rest)]
      dsimp only
      rw [if_neg (show ¬ ('\n') = ',' by decide)]
      rw [show ('\n' :: ((List.replicate 4 ' ' ++ [']']) ++ rest) : List Char) =
          ('\n' :: (List.replicate 4 ' ' ++ [']'])) ++ rest by simp]
      rw [expectChars_append]
  | n :: m :: t =>
    intro fuel rest _ hf
    cases fuel with
    | zero => simp at hf
    | succ f =>
      have ih := parsePagesItems_render (m :: t) f rest (by simp) (by
        simp only [List.length_cons] at hf ⊢
        omega)
      rw [show renderPagesItems (n :: m :: t) ++
            ('\n' :: (List.replicate 4 ' ' ++ [']'])) ++ rest =
          ('\n' :: List.replicate 6 ' ') ++
            (natToDigits n ++ ',' ::
              (renderPagesItems (m :: t) ++ ('\n' :: (List.replicate 4 ' ' ++ [']'])) ++ rest)) by
        simp [renderPagesItems]]
      simp only [parsePagesItemsF]
      rw [expectChars_append]
      dsimp only
      rw [parseNum_digits (show (',').isDigit = false by decide) n
        (renderPagesItems (m :: t) ++ ('\n' :: (List.replicate 4 ' ' ++ [']'])) ++ rest)]
      dsimp only
      rw [if_pos rfl]
      rw [ih]

theorem renderPagesItems_length (ps : List Nat) :
    ps.length ≤ (renderPagesItems ps).length := by
  match ps with
  | [] => simp [renderPagesItems]
  | [n] => simp [renderPagesItems]
  | n :: m :: t =>
    have ih := renderPagesItems_length (m :: t)
    simp only [renderPagesItems, List.length_cons, List.length_append,
      List.length_replicate] at ih ⊢
    omega

theorem renderPagesItems_shape (n : Nat) (t : List Nat) :
    ∃ l, renderPagesItems (n :: t) = '\n' :: l := by
  cases t with
  | nil => exact ⟨_, rfl⟩
  | cons m t2 => exact ⟨_, rfl⟩

theorem parsePages_render (ps : List Nat) (rest : List Char) :
    parsePages (renderPages ps ++ rest) = some (ps, rest) := by
  cases ps with
  | nil => simp [renderPages, parsePages]
  | cons n t =>
    obtain ⟨l, hl⟩ := renderPagesItems_shape n t
    rw [show renderPages (n :: t) ++ rest =
        '[' :: '\n' :: (l ++ ('\n' :: (List.replicate 4 ' ' ++ [']'])) ++ rest) by
      simp [renderPages, hl]]
    simp only [parsePages]
    rw [if_pos trivial, if_neg (show ¬ ('\n') = ']' by decide)]
    rw [show ('\n' :: (l ++ ('\n' :: (List.replicate 4 ' ' ++ [']'])) ++ rest) : List Char) =
        renderPagesItems (n :: t) ++ ('\n' :: (List.replicate 4 ' ' ++ [']'])) ++ rest by
      simp [hl]]
    refine parsePagesItems_render (n :: t) _ rest (by simp) ?_
    have h1 := renderPagesItems_length (n :: t)
    have h2 : (renderPagesItems (n :: t)).length = l.length + 1 := by
      rw [hl]
      simp
    simp only [List.length_cons, List.length_append, List.length_replicate] at h1 h2 ⊢
    omega

theorem renderInnerItems_length (m : MatchMap) :
    m.length ≤ (renderInnerItems m).length := by
  match m with
  | [] => simp [renderInnerItems]
  | [kp] => simp [renderInnerItems]
  | kp :: kp2 :: t =>
    have ih := renderInnerItems_length (kp2 :: t)
    simp only [renderInnerItems, List.length_cons, List.length_append,
      List.length_replicate] at ih ⊢
    omega

theorem renderInnerItems_shape (kp : String × List Nat) (t : MatchMap) :
    ∃ l, renderInnerItems (kp :: t) = '\n' :: l := by
  cases t with
  | nil => exact ⟨_, rfl⟩
  | cons kp2 t2 => exact ⟨_, rfl⟩

theorem parseInnerItems_render (m : MatchMap) :
    ∀ (fuel : Nat) (rest : List Char), m ≠ [] → m.length ≤ fuel →
    parseInnerItemsF fuel
      (renderInnerItems m ++ ('\n' :: (List.replicate 2 ' ' ++ [rbrace])) ++ rest) =
      some (m, rest) := by
  match m with
  | [] => intro fuel rest h _; exact absurd rfl h
  | [kp] =>
    intro fuel rest _ hf
    cases fuel with
    | zero => simp at hf
    | succ f =>
      rw [show renderInnerItems [kp] ++
            ('\n' :: (List.replicate 2 ' ' ++ [rbrace])) ++ rest =
          ('\n' :: List.replicate 4 ' ') ++
            (qstr kp.1 ++ ([':', ' '] ++
              (renderPages kp.2 ++
                ('\n' :: ((List.replicate 2 ' ' ++ [rbrace]) ++ rest))))) by
        simp [renderInnerItems]]
      simp only [parseInnerItemsF]
      rw [expectChars_append]
      dsimp only
      rw [parseQStr_qstr]
      dsimp only
      rw [expectChars_append]
      dsimp only
      rw [parsePages_render]
      dsimp only
      rw [if_neg (show ¬ ('\n') = ',' by decide)]
      rw [show ('\n' :: ((List.replicate 2 ' ' ++ [rbrace]) ++ rest) : List Char) =
          ('\n' :: (List.replicate 2 ' ' ++ [rbrace])) ++ rest by simp]
      rw [expectChars_append]
  | kp :: kp2 :: t =>
    intro fuel rest _ hf
    cases fuel with
    | zero => simp at hf
    | succ f =>
      have ih := parseInnerItems_render (kp2 :: t) f rest (by simp) (by
        simp only [List.length_cons] at hf ⊢
        omega)
      rw [show renderInnerItems (kp :: kp2 :: t) ++
            ('\n' :: (List.replicate 2 ' ' ++ [rbrace])) ++ rest =
          ('\n' :: List.replicate 4 ' ') ++
            (qstr kp.1 ++ ([':', ' '] ++
              (renderPages kp.2 ++ (',' ::
                (renderInnerItems (kp2 :: t) ++
                  ('\n' :: (List.replicate 2 ' ' ++ [rbrace])) ++ rest))))) by
        simp [renderInnerItems]]
      simp only [parseInnerItemsF]
      rw [expectChars_append]
      dsimp only
      rw [parseQStr_qstr]
      dsimp only
      rw [expectChars_append]
      dsimp only
      rw [parsePages_render]
      dsimp only
      rw [if_pos rfl]
      rw [ih]

theorem parseInner_render (m : MatchMap) (rest : List Char) :
    parseInner (renderInner m ++ rest) = some (m, rest) := by
  cases m with
  | nil => simp [renderInner, parseInner, lbrace, rbrace]
  | cons kp t =>
    obtain ⟨l, hl⟩ := renderInnerItems_shape kp t
    rw [show renderInner (kp :: t) ++ rest =
        lbrace :: '\n' ::
          (l ++ ('\n' :: (List.replicate 2 ' ' ++ [rbrace])) ++ rest) by
      simp [renderInner, hl]]
    simp only [parseInner]
    rw [if_pos trivial, if_neg (show ¬ ('\n') = rbrace by decide)]
    rw [show ('\n' ::
          (l ++ ('\n' :: (List.replicate 2 ' ' ++ [rbrace])) ++ rest) : List Char) =
        renderInnerItems (kp :: t) ++
          ('\n' :: (List.replicate 2 ' ' ++ [rbrace])) ++ rest by
      simp [hl]]
    refine parseInnerItems_render (kp :: t) _ rest (by simp) ?_
    have h1 := renderInnerItems_length (kp :: t)
    have h2 : (renderInnerItems (kp :: t)).length = l.length + 1 := by
      rw [hl]
      simp
    simp only [List.length_cons, List.length_append, List.length_replicate] at h1 h2 ⊢
    omega

theorem renderAggItems_length (a : Aggregate) :
    a.length ≤ (renderAggItems a).length := by
  match a with
  | [] => simp [renderAggItems]
  | [fm] => simp [renderAggItems]
  | fm :: fm2 :: t =>
    have ih := renderAggItems_length (fm2 :: t)
    simp only [renderAggItems, List.length_cons, List.length_append,
      List.length_replicate] at ih ⊢
    omega

theorem renderAggItems_shape (fm : String × MatchMap) (t : Aggregate) :
    ∃ l, renderAggItems (fm :: t) = '\n' :: l := by
  cases t with
  | nil => exact ⟨_, rfl⟩
  | cons fm2 t2 => exact ⟨_, rfl⟩

theorem parseAggItems_render (a : Aggregate) :
    ∀ (fuel : Nat) (rest : List Char), a ≠ [] → a.length ≤ fuel →
    parseAggItemsF fuel (renderAggItems a ++ ('\n' :: rbrace :: rest)) =
      some (a, rest) := by
  match a with
  | [] => intro fuel rest h _; exact absurd rfl h
  | [fm] =>
    intro fuel rest _ hf
    cases fuel with
    | zero => simp at hf
    | succ f =>
      rw [show renderAggItems [fm] ++ ('\n' :: rbrace :: rest) =
          ('\n' :: List.replicate 2 ' ') ++
            (qstr fm.1 ++ ([':', ' '] ++
              (renderInner fm.2 ++ ('\n' :: rbrace :: rest)))) by
        simp [renderAggItems]]
      simp only [parseAggItemsF]
      rw [expectChars_append]
      dsimp only
      rw [parseQStr_qstr]
      dsimp only
      rw [expectChars_append]
      dsimp only
      rw [parseInner_render]
      dsimp only
      rw [if_neg (show ¬ ('\n') = ',' by decide)]
      rw [show ('\n' :: rbrace :: rest : List Char) = ['\n', rbrace] ++ rest by simp]
      rw [expectChars_append]
  | fm :: fm2 :: t =>
    intro fuel rest _ hf
    cases fuel with
    | zero => simp at hf
    | succ f =>
      have ih := parseAggItems_render (fm2 :: t) f rest (by simp) (by
        simp only [List.length_cons] at hf ⊢
        omega)
      rw [show renderAggItems (fm :: fm2 :: t) ++ ('\n' :: rbrace :: rest) =
          ('\n' :: List.replicate 2 ' ') ++
            (qstr fm.1 ++ ([':', ' '] ++
              (renderInner fm.2 ++ (',' ::
                (renderAggItems (fm2 :: t) ++ ('\n' :: rbrace :: rest)))))) by
        simp [renderAggItems]]
      simp only [parseAggItemsF]
      rw [expectChars_append]
      dsimp only
      rw [parseQStr_qstr]
      dsimp only
      rw [expectChars_append]
      dsimp only
      rw [parseInner_render]
      dsimp only
      rw [if_pos rfl]
      rw [ih]

theorem parseAggTop_render (a : Aggregate) (rest : List Char) :
    parseAggTop (renderAgg a ++ rest) = some (a, rest) := by
  cases a with
  | nil => simp [renderAgg, parseAggTop, lbrace, rbrace]
  | cons fm t =>
    obtain ⟨l, hl⟩ := renderAggItems_shape fm t
    rw [show renderAgg (fm :: t) ++ rest =
        lbrace :: '\n' :: (l ++ ('\n' :: rbrace :: rest)) by
      simp [renderAgg, hl]]
    simp only [parseAggTop]
    rw [if_pos trivial, if_neg (show ¬ ('\n') = rbrace by decide)]
    rw [show ('\n' :: (l ++ ('\n' :: rbrace :: rest)) : List Char) =
        renderAggItems (fm :: t) ++ ('\n' :: rbrace :: rest) by simp [hl]]
    refine parseAggItems_render (fm :: t) _ rest (by simp) ?_
    have h1 := renderAggItems_length (fm :: t)
    have h2 : (renderAggItems (fm :: t)).length = l.length + 1 := by
      rw [hl]
      simp
    simp only [List.length_cons, List.length_append, List.length_replicate] at h1 h2 ⊢
    omega

theorem dictNorm_eq_self {α : Type} (l : List (String × α))
    (h : (l.map Prod.fst).Nodup) : dictNorm l = l := by
  unfold dictNorm
  rw [foldl_dictInsert_append l [] (by simp) h]
  simp

-- C8 --

/-- C8: serializing an aggregate report with `write_json` and parsing the
written text back yields an equal mapping — the same filename keys in the
same order, the same keyword keys, and the same page lists.  The duplicate-
free key hypotheses hold for every aggregate this program builds (Python
dicts cannot carry duplicate keys). -/
theorem write_json_parse_roundtrip (a : Aggregate)
    (hout : (a.map Prod.fst).Nodup)
    (hin : ∀ m ∈ a.map Prod.snd, (List.map Prod.fst m).Nodup) :
    parse_json (write_json a) = some a := by
  unfold parse_json write_json
  rw [show (String.mk (renderAgg a)).data = renderAgg a from rfl]
  rw [show renderAgg a = renderAgg a ++ [] by simp]
  rw [parseAggTop_render a []]
  dsimp only
  have hmap : a.map (fun fm => (fm.1, dictNorm fm.2)) = a.map id :=
    List.map_congr_left (fun fm hfm => by
      rw [dictNorm_eq_self fm.2 (hin fm.2 (List.mem_map_of_mem Prod.snd hfm))]
      rfl)
  rw [hmap, List.map_id, dictNorm_eq_self a hout]

/-- Witness for C8 at a concrete two-file aggregate. -/
theorem write_json_parse_roundtrip_witness :
    parse_json (write_json [("f.pdf", [("kw", [1, 2]), ("e", [])]), ("g.pdf", [])]) =
      some [("f.pdf", [("kw", [1, 2]), ("e", [])]), ("g.pdf", [])] :=
  write_json_parse_roundtrip
    [("f.pdf", [("kw", [1, 2]), ("e", [])]), ("g.pdf", [])] (by decide) (by decide)
